import Mathlib

set_option maxRecDepth 16000

/-!
Verification of the RAG-Ai-Chatbot retrieval pipeline.

The repository ships a Next.js frontend (embedded below from
frontend/app/page.tsx) together with documentation of its FastAPI backend
(README.md and the performance-optimization notes, which quote the backend's
key-normalization line and its SQL scan filter).  The backend module itself
(app.py: query embedding cache, similarity search, answer orchestration) is
not part of the source tree here, so those components are modelled from the
specification, with the quoted snippets fixing the key normalization and the
scan filter/limit.
-/

namespace RagChatbot

/-! ### Query embedding cache -/

/-- Embedding vectors; the 768-dimensional float vectors are idealized as
lists of rationals. -/
abbrev Vec := List ℚ

/-- Ways the embedding capability can fail (rate limit, transient network
error, malformed response). -/
inductive EmbedError where
  | rateLimit
  | network
  | malformed
  deriving DecidableEq, Repr

/-- Cache key normalization, from the quoted backend line
cache_key = text.strip().lower()[:200]. -/
def normalizeKey (text : String) : String :=
  (text.trim.toLower).take 200

/-- Modelled from the spec: the state of app.py's query_cache (not in src/),
an LRU cache whose entries are kept most-recently-used first. -/
structure CacheState where
  entries : List (String × Vec)
  deriving DecidableEq, Repr

/-- The keys currently cached, in recency order (most recent first). -/
def cacheKeys (st : CacheState) : List String :=
  st.entries.map Prod.fst

/-- Association-list lookup for a normalized key. -/
def lookupEntry (k : String) : List (String × Vec) → Option Vec
  | [] => none
  | e :: rest => if e.1 = k then some e.2 else lookupEntry k rest

/-- Result of one get_or_compute call: the value or the propagated failure,
the cache state afterwards, and how many times EmbeddingClient was invoked. -/
structure StepResult where
  result : Except EmbedError Vec
  state : CacheState
  clientCalls : Nat
  deriving Repr

/-- Modelled from the spec: app.py's get_query_embedding_cached (not in
src/).  Normalizes the key; on hit returns the stored vector and marks the
entry most recently used; on miss invokes EmbeddingClient, stores the result
and evicts the least-recently-used entry if capacity is exceeded; on client
failure performs no insertion and propagates the failure. -/
def getOrCompute (embed : String → Except EmbedError Vec) (cap : Nat)
    (st : CacheState) (text : String) : StepResult :=
  let k := normalizeKey text
  match lookupEntry k st.entries with
  | some v =>
      ⟨Except.ok v, ⟨(k, v) :: st.entries.filter (fun e => decide (e.1 ≠ k))⟩, 0⟩
  | none =>
      match embed text with
      | Except.error e => ⟨Except.error e, st, 1⟩
      | Except.ok v => ⟨Except.ok v, ⟨((k, v) :: st.entries).take cap⟩, 1⟩

/-- Run a sequence of get_or_compute calls, threading the cache state. -/
def runQueries (embed : String → Except EmbedError Vec) (cap : Nat)
    (st : CacheState) : List String → CacheState
  | [] => st
  | q :: qs => runQueries embed cap (getOrCompute embed cap st q).state qs

/-! ### Chunk store rows and similarity search -/

/-- A stored passage row, shape from the README schema:
id, content, url, optional embedding BLOB. -/
structure Chunk (V : Type) where
  id : Nat
  content : String
  url : String
  embedding : Option (List V)
  deriving DecidableEq, Repr

/-- The scan filter from the quoted SQL:
WHERE embedding IS NOT NULL AND embedding != ''. -/
def hasEmbedding {V : Type} (c : Chunk V) : Bool :=
  match c.embedding with
  | none => false
  | some v => !v.isEmpty

/-- A chunk paired with its similarity score and its original scan
position. -/
structure Scored (V : Type) (α : Type) where
  idx : Nat
  chunk : Chunk V
  score : α
  deriving DecidableEq, Repr

/-- The configuration surface of the pipeline (README "Configuration"
section and spec section 6). -/
structure Config (α : Type) where
  similarityThreshold : α
  maxResults : Nat
  maxContextChunks : Nat
  maxCharsPerChunk : Nat
  scanLimit : Nat
  cacheCapacity : Nat
  deriving DecidableEq, Repr

/-- Rows actually read: the scan filter and LIMIT from the quoted SQL. -/
def scanRows {V : Type} (limit : Nat) (rows : List (Chunk V)) : List (Chunk V) :=
  (rows.filter hasEmbedding).take limit

/-- Score the scanned rows in order, recording each row's scan position. -/
def scoreRowsFrom {V α : Type} (sim : List V → α) (i : Nat) :
    List (Chunk V) → List (Scored V α)
  | [] => []
  | c :: cs => ⟨i, c, sim (c.embedding.getD [])⟩ :: scoreRowsFrom sim (i + 1) cs

/-- Score the scanned rows, scan positions starting at 0. -/
def scoreRows {V α : Type} (sim : List V → α) (scanned : List (Chunk V)) :
    List (Scored V α) :=
  scoreRowsFrom sim 0 scanned

/-- Modelled from the spec: retain a candidate only if its similarity is at
least the threshold (inclusive lower bound). -/
def candidatesOf {V α : Type} [LinearOrder α] (thr : α)
    (scored : List (Scored V α)) : List (Scored V α) :=
  scored.filter (fun s => decide (thr ≤ s.score))

/-- Sort-order relation for ranking: higher scores first. -/
def scoreLE {V α : Type} [LinearOrder α] (p q : Scored V α) : Prop :=
  q.score ≤ p.score

instance {V α : Type} [LinearOrder α] : DecidableRel (scoreLE (V := V) (α := α)) :=
  fun p q => inferInstanceAs (Decidable (q.score ≤ p.score))

/-- Modelled from the spec: sort candidates by similarity descending; the
insertion sort is stable, so exactly-equal scores keep scan order. -/
def rankDesc {V α : Type} [LinearOrder α] (cands : List (Scored V α)) :
    List (Scored V α) :=
  List.insertionSort scoreLE cands

/-- The retrieval outcome: ranked results and how many rows were scanned. -/
structure RetrievalResult (V α : Type) where
  results : List (Scored V α)
  scannedCount : Nat
  deriving DecidableEq, Repr

/-- Modelled from the spec: SimilaritySearchEngine.search.  Stream rows up to
scanLimit (skipping rows without embeddings, per the quoted SQL), score the
rest, keep scores at or above the threshold, rank descending (stable) and
truncate to maxResults. -/
def search {V α : Type} [LinearOrder α] (sim : List V → α) (cfg : Config α)
    (rows : List (Chunk V)) : RetrievalResult V α :=
  let scanned := scanRows cfg.scanLimit rows
  let scored := scoreRows sim scanned
  let cands := candidatesOf cfg.similarityThreshold scored
  ⟨(rankDesc cands).take cfg.maxResults, scanned.length⟩

/-! ### Cosine similarity over idealized real vectors -/

/-- Dot product of two real vectors (componentwise, stopping at the shorter
list). -/
def dotp : List ℝ → List ℝ → ℝ
  | [], _ => 0
  | _ :: _, [] => 0
  | a :: as, b :: bs => a * b + dotp as bs

/-- Euclidean norm of a real vector. -/
noncomputable def vnorm (v : List ℝ) : ℝ :=
  Real.sqrt (dotp v v)

/-- Modelled from the spec: cosine similarity dot(a,b) / (norm a * norm b),
with a zero-norm operand treated as non-matching (the minimum possible
value, -1) instead of raising a division error. -/
noncomputable def cosineSim (a b : List ℝ) : ℝ :=
  if vnorm a = 0 ∨ vnorm b = 0 then -1
  else dotp a b / (vnorm a * vnorm b)

/-! ### Context assembly and orchestration -/

/-- A source link in the response: url plus a short text preview. -/
structure Link where
  url : String
  text : String
  deriving DecidableEq, Repr

/-- Modelled from the spec: context text is the concatenation of the top
maxContextChunks candidates' content, truncated per chunk and tagged with the
source URL. -/
def assembleContext {V α : Type} (maxCtx maxChars : Nat)
    (ranked : List (Scored V α)) : String :=
  String.join ((ranked.take maxCtx).map
    (fun sc => "[source: " ++ sc.chunk.url ++ "] " ++ sc.chunk.content.take maxChars))

/-- Deduplicate links by URL, preserving rank order, first occurrence wins. -/
def dedupeLinks {V α : Type} (seen : List String) :
    List (Scored V α) → List Link
  | [] => []
  | sc :: rest =>
      if sc.chunk.url ∈ seen then dedupeLinks seen rest
      else ⟨sc.chunk.url, sc.chunk.content.take 100⟩ :: dedupeLinks (sc.chunk.url :: seen) rest

/-- Modelled from the spec: links come from the full ranked candidate list,
deduplicated by URL in rank order, each with a content preview. -/
def assembleLinks {V α : Type} (ranked : List (Scored V α)) : List Link :=
  dedupeLinks [] ranked

/-- Error taxonomy of the orchestrator (spec section 7). -/
inductive ErrKind where
  | invalidRequest
  | embeddingUnavailable
  | storeUnavailable
  | generationUnavailable
  deriving DecidableEq, Repr

/-- Store failure: persistence unreachable. -/
inductive StoreError where
  | unreachable
  deriving DecidableEq, Repr

/-- Generation failure: timeout, quota, malformed output. -/
inductive GenError where
  | timeout
  | quota
  | malformedOutput
  deriving DecidableEq, Repr

/-- Terminal outcome of one request: RESPONDED with answer and links, or
ERRORED with an error kind. -/
inductive Outcome where
  | responded (answer : String) (links : List Link)
  | errored (kind : ErrKind)
  deriving DecidableEq, Repr

/-- Modelled from the spec: the RetrievalOrchestrator state machine of
section 4.5.  Validates the question, embeds it, searches the store, builds
context and links, and generates the answer; each collaborator failure maps
to its error kind, and an empty retrieval proceeds normally into the
generation fallback. -/
def orchestrate {V α : Type} [LinearOrder α] (simFn : List V → List V → α)
    (cfg : Config α) (embed : String → Except EmbedError (List V))
    (storeRes : Except StoreError (List (Chunk V)))
    (gen : String → String → Option String → Except GenError String)
    (question : String) (image : Option String) : Outcome :=
  if question.trim = "" then Outcome.errored ErrKind.invalidRequest
  else
    match embed question with
    | Except.error _ => Outcome.errored ErrKind.embeddingUnavailable
    | Except.ok qv =>
        match storeRes with
        | Except.error _ => Outcome.errored ErrKind.storeUnavailable
        | Except.ok rows =>
            let rr := search (simFn qv) cfg rows
            let ctx := assembleContext cfg.maxContextChunks cfg.maxCharsPerChunk rr.results
            let links := assembleLinks rr.results
            match gen question ctx image with
            | Except.error _ => Outcome.errored ErrKind.generationUnavailable
            | Except.ok ans => Outcome.responded ans links

/-! ### Frontend chat page (frontend/app/page.tsx) -/

/-- Message author role. -/
inductive Role where
  | user
  | assistant
  deriving DecidableEq, Repr

/-- A chat message as in the Message interface of page.tsx. -/
structure Message where
  id : String
  role : Role
  content : String
  links : Option (List Link)
  image : Option String
  deriving DecidableEq, Repr

/-- The backend response shape consumed by the frontend. -/
structure ApiResponse where
  answer : String
  links : List Link
  deriving DecidableEq, Repr

/-- The component state of ChatPage: messages, isLoading, error. -/
structure ChatState where
  messages : List Message
  isLoading : Bool
  error : Option String
  deriving DecidableEq, Repr

/-- handleSendMessage from page.tsx.  The guard returns early when the
question trims to empty or a request is in flight; otherwise the user
message is appended, loading is set, the request is issued (the boolean in
the result), and the response or error is folded into the state.  now stands
for Date.now(), resp for the settled fetch. -/
def handleSendMessage (st : ChatState) (question : String)
    (image : Option String) (now : Nat) (resp : Except String ApiResponse) :
    ChatState × Bool :=
  if question.trim = "" ∨ st.isLoading then (st, false)
  else
    let userMessage : Message := ⟨toString now, Role.user, question, none, image⟩
    let afterUser : List Message := st.messages ++ [userMessage]
    match resp with
    | Except.ok data =>
        (⟨afterUser ++ [⟨toString (now + 1), Role.assistant, data.answer, some data.links, none⟩],
          false, none⟩, true)
    | Except.error e => (⟨afterUser, false, some e⟩, true)

/-! ### Evaluation lemmas for string literals

String.trim and String.toLower are defined by well-founded recursion, which
the kernel does not reduce, so the concrete values used in witnesses are
computed here by unfolding the recursion equations step by step. -/

theorem trim_lit_a : "a".trim = "a" := by
  simp only [String.trim, Substring.trim, String.toSubstring]
  rw [Substring.takeWhileAux, Substring.takeRightWhileAux]
  decide

theorem trim_lit_b : "b".trim = "b" := by
  simp only [String.trim, Substring.trim, String.toSubstring]
  rw [Substring.takeWhileAux, Substring.takeRightWhileAux]
  decide

theorem trim_lit_c : "c".trim = "c" := by
  simp only [String.trim, Substring.trim, String.toSubstring]
  rw [Substring.takeWhileAux, Substring.takeRightWhileAux]
  decide

theorem trim_lit_A : "A".trim = "A" := by
  simp only [String.trim, Substring.trim, String.toSubstring]
  rw [Substring.takeWhileAux, Substring.takeRightWhileAux]
  decide

theorem trim_lit_spaces : "   ".trim = "" := by
  simp only [String.trim, Substring.trim, String.toSubstring]
  rw [Substring.takeWhileAux, Substring.takeWhileAux, Substring.takeWhileAux,
    Substring.takeWhileAux, Substring.takeRightWhileAux]
  decide

theorem trim_lit_hi : "hi".trim = "hi" := by
  simp only [String.trim, Substring.trim, String.toSubstring]
  rw [Substring.takeWhileAux, Substring.takeRightWhileAux]
  decide

theorem lower_lit_a : "a".toLower = "a" := by
  simp only [String.toLower, String.map]
  rw [String.mapAux]
  rw [dif_neg (by decide)]
  show String.mapAux Char.toLower (("a".set 0 ("a".get 0).toLower).next 0)
    ("a".set 0 ("a".get 0).toLower) = "a"
  rw [show ("a".set 0 ("a".get 0).toLower) = "a" from by decide]
  rw [String.mapAux]
  decide

theorem lower_lit_b : "b".toLower = "b" := by
  simp only [String.toLower, String.map]
  rw [String.mapAux]
  rw [dif_neg (by decide)]
  show String.mapAux Char.toLower (("b".set 0 ("b".get 0).toLower).next 0)
    ("b".set 0 ("b".get 0).toLower) = "b"
  rw [show ("b".set 0 ("b".get 0).toLower) = "b" from by decide]
  rw [String.mapAux]
  decide

theorem lower_lit_c : "c".toLower = "c" := by
  simp only [String.toLower, String.map]
  rw [String.mapAux]
  rw [dif_neg (by decide)]
  show String.mapAux Char.toLower (("c".set 0 ("c".get 0).toLower).next 0)
    ("c".set 0 ("c".get 0).toLower) = "c"
  rw [show ("c".set 0 ("c".get 0).toLower) = "c" from by decide]
  rw [String.mapAux]
  decide

theorem lower_lit_A : "A".toLower = "a" := by
  simp only [String.toLower, String.map]
  rw [String.mapAux]
  rw [dif_neg (by decide)]
  show String.mapAux Char.toLower (("A".set 0 ("A".get 0).toLower).next 0)
    ("A".set 0 ("A".get 0).toLower) = "a"
  rw [show ("A".set 0 ("A".get 0).toLower) = "a" from by decide]
  rw [String.mapAux]
  decide

theorem normalizeKey_lit_a : normalizeKey "a" = "a" := by
  unfold normalizeKey
  rw [trim_lit_a, lower_lit_a]
  decide

theorem normalizeKey_lit_b : normalizeKey "b" = "b" := by
  unfold normalizeKey
  rw [trim_lit_b, lower_lit_b]
  decide

theorem normalizeKey_lit_c : normalizeKey "c" = "c" := by
  unfold normalizeKey
  rw [trim_lit_c, lower_lit_c]
  decide

theorem normalizeKey_lit_A : normalizeKey "A" = "a" := by
  unfold normalizeKey
  rw [trim_lit_A, lower_lit_A]
  decide

/-! ### Helper lemmas about the cache -/

theorem lookupEntry_eq_none {k : String} :
    ∀ {entries : List (String × Vec)}, k ∉ entries.map Prod.fst →
      lookupEntry k entries = none := by
  intro entries
  induction entries with
  | nil => intro _; rfl
  | cons e rest ih =>
      intro h
      rw [List.map_cons, List.mem_cons] at h
      push_neg at h
      rw [lookupEntry, if_neg (fun he => h.1 he.symm)]
      exact ih h.2

theorem getOrCompute_hit {embed : String → Except EmbedError Vec} {cap : Nat}
    {st : CacheState} {q : String} {v : Vec}
    (h : lookupEntry (normalizeKey q) st.entries = some v) :
    getOrCompute embed cap st q =
      ⟨Except.ok v,
        ⟨(normalizeKey q, v) :: st.entries.filter (fun e => decide (e.1 ≠ normalizeKey q))⟩,
        0⟩ := by
  simp only [getOrCompute, h]

theorem getOrCompute_miss_ok {embed : String → Except EmbedError Vec} {cap : Nat}
    {st : CacheState} {q : String} {v : Vec}
    (hm : normalizeKey q ∉ cacheKeys st) (he : embed q = Except.ok v) :
    (getOrCompute embed cap st q).state.entries =
      ((normalizeKey q, v) :: st.entries).take cap := by
  simp only [getOrCompute, lookupEntry_eq_none hm, he]

theorem cacheKeys_runQueries (embed : String → Except EmbedError Vec) (cap : Nat) :
    ∀ (qs : List String) (st : CacheState),
      (∀ q ∈ qs, ∃ v, embed q = Except.ok v) →
      (∀ q ∈ qs, normalizeKey q ∉ cacheKeys st) →
      (qs.map normalizeKey).Nodup →
      cacheKeys (runQueries embed cap st qs) =
        qs.foldl (fun L q => ((normalizeKey q) :: L).take cap) (cacheKeys st) := by
  intro qs
  induction qs with
  | nil => intro st _ _ _; rfl
  | cons q qs ih =>
      intro st hok hfresh hnd
      obtain ⟨v, hv⟩ := hok q (List.mem_cons_self _ _)
      have hfq : normalizeKey q ∉ cacheKeys st := hfresh q (List.mem_cons_self _ _)
      have hkeys1 : cacheKeys (getOrCompute embed cap st q).state =
          ((normalizeKey q) :: cacheKeys st).take cap := by
        simp only [cacheKeys, getOrCompute_miss_ok hfq hv, List.map_take, List.map_cons]
      rw [List.map_cons, List.nodup_cons] at hnd
      rw [runQueries, List.foldl_cons,
        ih _ (fun q2 hq2 => hok q2 (List.mem_cons_of_mem _ hq2)) ?fresh hnd.2]
      · rw [hkeys1]
      case fresh =>
        intro q2 hq2 hmem
        rw [hkeys1] at hmem
        rcases List.mem_cons.mp (List.mem_of_mem_take hmem) with heq | hmem2
        · exact hnd.1 (heq ▸ List.mem_map_of_mem normalizeKey hq2)
        · exact hfresh q2 (List.mem_cons_of_mem _ hq2) hmem2

theorem foldl_take_keys (cap : Nat) :
    ∀ ks : List String, ks.foldl (fun L k => (k :: L).take cap) [] =
      (ks.reverse).take cap := by
  intro ks
  induction ks using List.reverseRecOn with
  | nil => simp
  | append_singleton ks k ih =>
      rw [List.foldl_append, ih, List.foldl_cons, List.foldl_nil, List.reverse_append]
      show ((k :: (ks.reverse.take cap)).take cap) = ([k] ++ ks.reverse).take cap
      cases cap with
      | zero => simp
      | succ n =>
          rw [List.singleton_append, List.take_succ_cons, List.take_succ_cons,
            List.take_take, Nat.min_eq_left (Nat.le_succ n)]

theorem hasEmbedding_of_mem_scanRows {V : Type} {limit : Nat} {rows : List (Chunk V)}
    {c : Chunk V} (h : c ∈ scanRows limit rows) : hasEmbedding c = true := by
  have h2 : c ∈ rows.filter hasEmbedding := List.mem_of_mem_take h
  exact (List.mem_filter.mp h2).2

theorem chunk_mem_of_mem_scoreRowsFrom {V α : Type} {sim : List V → α} :
    ∀ {n : Nat} {cs : List (Chunk V)} {sc : Scored V α},
      sc ∈ scoreRowsFrom sim n cs → sc.chunk ∈ cs := by
  intro n cs
  induction cs generalizing n with
  | nil => intro sc h; simp [scoreRowsFrom] at h
  | cons c cs ih =>
      intro sc h
      rcases (by simpa [scoreRowsFrom] using h :
          sc = ⟨n, c, sim (c.embedding.getD [])⟩ ∨ sc ∈ scoreRowsFrom sim (n + 1) cs) with
        h1 | h2
      · subst h1; exact List.mem_cons_self _ _
      · exact List.mem_cons_of_mem _ (ih h2)

theorem score_of_mem_scoreRowsFrom {V α : Type} {sim : List V → α} :
    ∀ {n : Nat} {cs : List (Chunk V)} {sc : Scored V α},
      sc ∈ scoreRowsFrom sim n cs → sc.score = sim (sc.chunk.embedding.getD []) := by
  intro n cs
  induction cs generalizing n with
  | nil => intro sc h; simp [scoreRowsFrom] at h
  | cons c cs ih =>
      intro sc h
      rcases (by simpa [scoreRowsFrom] using h :
          sc = ⟨n, c, sim (c.embedding.getD [])⟩ ∨ sc ∈ scoreRowsFrom sim (n + 1) cs) with
        h1 | h2
      · subst h1; rfl
      · exact ih h2

theorem mem_candidatesOf {V α : Type} [LinearOrder α] {thr : α}
    {scored : List (Scored V α)} {sc : Scored V α} :
    sc ∈ candidatesOf thr scored ↔ sc ∈ scored ∧ thr ≤ sc.score := by
  simp [candidatesOf, List.mem_filter]

theorem mem_candidates_of_mem_results {V α : Type} [LinearOrder α]
    {sim : List V → α} {cfg : Config α} {rows : List (Chunk V)} {sc : Scored V α}
    (h : sc ∈ (search sim cfg rows).results) :
    sc ∈ candidatesOf cfg.similarityThreshold (scoreRows sim (scanRows cfg.scanLimit rows)) := by
  simp only [search] at h
  have h2 := List.mem_of_mem_take h
  simpa [rankDesc, List.mem_insertionSort] using h2

/-! ### Claim theorems -/

/-- C2: the similarity threshold is an inclusive lower bound: a scanned,
scored chunk is retained as a candidate if and only if its similarity is at
least the configured threshold. -/
theorem threshold_inclusive {V α : Type} [LinearOrder α] (sim : List V → α)
    (cfg : Config α) (rows : List (Chunk V)) (sc : Scored V α)
    (h : sc ∈ scoreRows sim (scanRows cfg.scanLimit rows)) :
    sc ∈ candidatesOf cfg.similarityThreshold (scoreRows sim (scanRows cfg.scanLimit rows)) ↔
      cfg.similarityThreshold ≤ sc.score := by
  simp [mem_candidatesOf, h]

/-- Witness for C2 at concrete inputs: a candidate scoring exactly the
threshold 2 is retained; one scoring 1 is not. -/
theorem threshold_inclusive_witness :
    ((⟨0, ⟨1, "a", "u", some [(1 : ℚ)]⟩, (2 : ℚ)⟩ : Scored ℚ ℚ) ∈
      candidatesOf ((2 : ℚ))
        (scoreRows (fun _ => (2 : ℚ)) (scanRows 500 [⟨1, "a", "u", some [(1 : ℚ)]⟩]))) ∧
    ((⟨0, ⟨1, "a", "u", some [(1 : ℚ)]⟩, (1 : ℚ)⟩ : Scored ℚ ℚ) ∉
      candidatesOf ((2 : ℚ))
        (scoreRows (fun _ => (1 : ℚ)) (scanRows 500 [⟨1, "a", "u", some [(1 : ℚ)]⟩]))) := by
  constructor
  · exact (threshold_inclusive (fun _ => (2 : ℚ)) ⟨(2 : ℚ), 8, 3, 3000, 500, 100⟩
      [⟨1, "a", "u", some [(1 : ℚ)]⟩] _ (by decide)).mpr (by norm_num)
  · intro hm
    exact absurd ((threshold_inclusive (fun _ => (1 : ℚ))
      ⟨(2 : ℚ), 8, 3, 3000, 500, 100⟩
      [⟨1, "a", "u", some [(1 : ℚ)]⟩] _ (by decide)).mp hm) (by norm_num)

/-- C3: a chunk row whose embedding is absent or empty is excluded before
scoring: it is never among the scanned rows, never among the scored rows,
and never among the returned results. -/
theorem missing_embedding_skipped {V α : Type} [LinearOrder α] (sim : List V → α)
    (cfg : Config α) (rows : List (Chunk V)) (c : Chunk V)
    (h : hasEmbedding c = false) :
    c ∉ scanRows cfg.scanLimit rows ∧
    c ∉ (scoreRows sim (scanRows cfg.scanLimit rows)).map Scored.chunk ∧
    c ∉ ((search sim cfg rows).results.map Scored.chunk) := by
  have hscan : c ∉ scanRows cfg.scanLimit rows := by
    intro hmem
    rw [hasEmbedding_of_mem_scanRows hmem] at h
    exact Bool.noConfusion h
  refine ⟨hscan, ?_, ?_⟩
  · intro hmem
    rcases List.mem_map.mp hmem with ⟨sc, hsc, hchunk⟩
    exact hscan (hchunk ▸ chunk_mem_of_mem_scoreRowsFrom hsc)
  · intro hmem
    rcases List.mem_map.mp hmem with ⟨sc, hsc, hchunk⟩
    have h2 := (mem_candidatesOf.mp (mem_candidates_of_mem_results hsc)).1
    exact hscan (hchunk ▸ chunk_mem_of_mem_scoreRowsFrom h2)

/-- Witness for C3: a concrete chunk with a null embedding is skipped and
never returned. -/
theorem missing_embedding_skipped_witness :
    ((⟨3, "g", "u3", none⟩ : Chunk ℚ) ∉ scanRows 500 [(⟨3, "g", "u3", none⟩ : Chunk ℚ)]) ∧
    ((⟨3, "g", "u3", none⟩ : Chunk ℚ) ∉
      (scoreRows (fun _ => (1 : ℚ)) (scanRows 500 [(⟨3, "g", "u3", none⟩ : Chunk ℚ)])).map
        Scored.chunk) ∧
    ((⟨3, "g", "u3", none⟩ : Chunk ℚ) ∉
      ((search (fun _ => (1 : ℚ)) ⟨(2 : ℚ), 8, 3, 3000, 500, 100⟩
        [(⟨3, "g", "u3", none⟩ : Chunk ℚ)]).results.map Scored.chunk)) :=
  missing_embedding_skipped (fun _ => (1 : ℚ)) ⟨(2 : ℚ), 8, 3, 3000, 500, 100⟩
    [⟨3, "g", "u3", none⟩] ⟨3, "g", "u3", none⟩ (by decide)

/-- Scan-order relation: strictly increasing scan positions. -/
def idxLT {V α : Type} (p q : Scored V α) : Prop :=
  p.idx < q.idx

/-- Stability relation: exactly-equal scores appear in scan order. -/
def scanStable {V α : Type} (p q : Scored V α) : Prop :=
  p.score = q.score → p.idx < q.idx

theorem idx_ge_of_mem_scoreRowsFrom {V α : Type} {sim : List V → α} :
    ∀ {n : Nat} {cs : List (Chunk V)} {sc : Scored V α},
      sc ∈ scoreRowsFrom sim n cs → n ≤ sc.idx := by
  intro n cs
  induction cs generalizing n with
  | nil => intro sc h; simp [scoreRowsFrom] at h
  | cons c cs ih =>
      intro sc h
      rcases (by simpa [scoreRowsFrom] using h :
          sc = ⟨n, c, sim (c.embedding.getD [])⟩ ∨ sc ∈ scoreRowsFrom sim (n + 1) cs) with
        h1 | h2
      · subst h1; exact le_refl n
      · exact le_trans (Nat.le_succ n) (ih h2)

theorem pairwise_idx_scoreRowsFrom {V α : Type} (sim : List V → α) :
    ∀ (n : Nat) (cs : List (Chunk V)),
      (scoreRowsFrom sim n cs).Pairwise (idxLT (V := V) (α := α)) := by
  intro n cs
  induction cs generalizing n with
  | nil => simp [scoreRowsFrom]
  | cons c cs ih =>
      rw [scoreRowsFrom]
      refine List.pairwise_cons.mpr ⟨?_, ih (n + 1)⟩
      intro sc hsc
      exact lt_of_lt_of_le (Nat.lt_succ_self n) (idx_ge_of_mem_scoreRowsFrom hsc)

theorem pairwise_scanStable_orderedInsert {V α : Type} [LinearOrder α]
    (a : Scored V α) :
    ∀ L : List (Scored V α), L.Pairwise scanStable → (∀ b ∈ L, a.idx < b.idx) →
      (List.orderedInsert scoreLE a L).Pairwise scanStable := by
  intro L
  induction L with
  | nil =>
      intro _ _
      simp [List.orderedInsert, scanStable]
  | cons b L ih =>
      intro hP ha
      rw [List.orderedInsert]
      rcases List.pairwise_cons.mp hP with ⟨hbL, hL⟩
      by_cases h : scoreLE a b
      · rw [if_pos h]
        refine List.pairwise_cons.mpr ⟨?_, hP⟩
        intro c hc _
        exact ha c hc
      · rw [if_neg h]
        have hb : a.score < b.score := lt_of_not_le h
        refine List.pairwise_cons.mpr
          ⟨?_, ih hL (fun c hc => ha c (List.mem_cons_of_mem _ hc))⟩
        intro c hc
        rcases (List.mem_orderedInsert scoreLE).mp hc with rfl | hcL
        · intro heq
          exact absurd (heq ▸ hb) (lt_irrefl _)
        · exact hbL c hcL

theorem pairwise_scanStable_insertionSort {V α : Type} [LinearOrder α] :
    ∀ l : List (Scored V α), l.Pairwise idxLT →
      (List.insertionSort scoreLE l).Pairwise scanStable := by
  intro l
  induction l with
  | nil =>
      intro _
      simp
  | cons a l ih =>
      intro h
      rcases List.pairwise_cons.mp h with ⟨hal, hl⟩
      rw [List.insertionSort]
      refine pairwise_scanStable_orderedInsert a _ (ih hl) ?_
      intro b hb
      exact hal b ((List.mem_insertionSort _).mp hb)

/-- C6: the ranked output is sorted by score descending; exactly-equal
scores keep their original scan order (stable sort); and the output is
truncated to at most maxResults entries. -/
theorem ranking_sorted_stable_truncated {V α : Type} [LinearOrder α]
    (sim : List V → α) (cfg : Config α) (rows : List (Chunk V)) :
    ((search sim cfg rows).results).Pairwise scoreLE ∧
    ((search sim cfg rows).results).Pairwise scanStable ∧
    ((search sim cfg rows).results).length ≤ cfg.maxResults := by
  have hres : (search sim cfg rows).results =
      (rankDesc (candidatesOf cfg.similarityThreshold
        (scoreRows sim (scanRows cfg.scanLimit rows)))).take cfg.maxResults := rfl
  haveI htr : IsTrans (Scored V α) scoreLE :=
    ⟨fun a b c hab hbc => le_trans hbc hab⟩
  haveI hto : IsTotal (Scored V α) scoreLE :=
    ⟨fun a b => le_total b.score a.score⟩
  have hsorted : (rankDesc (candidatesOf cfg.similarityThreshold
      (scoreRows sim (scanRows cfg.scanLimit rows)))).Pairwise scoreLE :=
    List.sorted_insertionSort scoreLE _
  have hidx : (scoreRows sim (scanRows cfg.scanLimit rows)).Pairwise
      (idxLT (V := V) (α := α)) :=
    pairwise_idx_scoreRowsFrom sim 0 _
  have hcandidx : (candidatesOf cfg.similarityThreshold
      (scoreRows sim (scanRows cfg.scanLimit rows))).Pairwise idxLT :=
    List.Pairwise.filter _ hidx
  have hstab : (rankDesc (candidatesOf cfg.similarityThreshold
      (scoreRows sim (scanRows cfg.scanLimit rows)))).Pairwise scanStable :=
    pairwise_scanStable_insertionSort _ hcandidx
  refine ⟨?_, ?_, ?_⟩
  · rw [hres]
    exact List.Pairwise.sublist (List.take_sublist _ _) hsorted
  · rw [hres]
    exact List.Pairwise.sublist (List.take_sublist _ _) hstab
  · rw [hres]
    exact List.length_take_le _ _

/-- C4: the engine reads at most scanLimit rows from the store and the
reported scanned count never exceeds scanLimit, for every store contents. -/
theorem scan_bounded {V α : Type} [LinearOrder α] (sim : List V → α)
    (cfg : Config α) (rows : List (Chunk V)) :
    (search sim cfg rows).scannedCount ≤ cfg.scanLimit ∧
    (scanRows cfg.scanLimit rows).length ≤ cfg.scanLimit :=
  ⟨List.length_take_le _ _, List.length_take_le _ _⟩

/-- C1: the cache never exceeds its capacity, and after get_or_compute calls
on capacity + 1 questions with pairwise-distinct normalized keys starting
from an empty cache, exactly capacity entries remain: the cached keys are
precisely the keys of the later capacity questions (in recency order), the
first question's key — which was the least-recently-used entry just before
the overflowing insert — has been evicted. -/
theorem cache_capacity_lru (embed : String → Except EmbedError Vec) (cap : Nat)
    (q0 : String) (qrest : List String)
    (hcap : 0 < cap)
    (hlen : qrest.length = cap)
    (hnd : ((q0 :: qrest).map normalizeKey).Nodup)
    (hok : ∀ q ∈ q0 :: qrest, ∃ v, embed q = Except.ok v) :
    (runQueries embed cap ⟨[]⟩ (q0 :: qrest)).entries.length = cap ∧
    cacheKeys (runQueries embed cap ⟨[]⟩ (q0 :: qrest)) = (qrest.map normalizeKey).reverse ∧
    normalizeKey q0 ∉ cacheKeys (runQueries embed cap ⟨[]⟩ (q0 :: qrest)) ∧
    (cacheKeys (runQueries embed cap ⟨[]⟩ ((q0 :: qrest).dropLast))).getLast? =
      some (normalizeKey q0) := by
  have hfresh : ∀ q ∈ q0 :: qrest, normalizeKey q ∉ cacheKeys (⟨[]⟩ : CacheState) := by
    intro q _ h
    simp [cacheKeys] at h
  have hkeys := cacheKeys_runQueries embed cap (q0 :: qrest) ⟨[]⟩ hok hfresh hnd
  rw [show cacheKeys (⟨[]⟩ : CacheState) = [] from rfl] at hkeys
  have hbridge : (q0 :: qrest).foldl
      (fun L q => ((normalizeKey q) :: L).take cap) [] =
      (((q0 :: qrest).map normalizeKey).reverse).take cap := by
    rw [← foldl_take_keys cap ((q0 :: qrest).map normalizeKey), List.foldl_map]
  rw [hbridge] at hkeys
  have hlenrev : (((qrest.map normalizeKey)).reverse).length = cap := by
    rw [List.length_reverse, List.length_map, hlen]
  have hmain : cacheKeys (runQueries embed cap ⟨[]⟩ (q0 :: qrest)) =
      (qrest.map normalizeKey).reverse := by
    rw [hkeys, List.map_cons, List.reverse_cons, List.take_left' hlenrev]
  have hnd0 : normalizeKey q0 ∉ qrest.map normalizeKey := by
    rw [List.map_cons, List.nodup_cons] at hnd
    exact hnd.1
  refine ⟨?_, hmain, ?_, ?_⟩
  · have : (cacheKeys (runQueries embed cap ⟨[]⟩ (q0 :: qrest))).length = cap := by
      rw [hmain, hlenrev]
    rw [cacheKeys, List.length_map] at this
    exact this
  · rw [hmain, List.mem_reverse]
    exact hnd0
  · obtain ⟨r, rs, hq⟩ : ∃ r rs, qrest = r :: rs := by
      cases qrest with
      | nil => simp only [List.length_nil] at hlen; omega
      | cons r rs => exact ⟨r, rs, rfl⟩
    have hdrop : (q0 :: qrest).dropLast = q0 :: qrest.dropLast := by
      rw [hq]; exact List.dropLast_cons₂ ..
    have hsub : (q0 :: qrest.dropLast).Sublist (q0 :: qrest) := by
      exact List.Sublist.cons₂ q0 (List.dropLast_sublist qrest)
    have hokd : ∀ q ∈ (q0 :: qrest).dropLast, ∃ v, embed q = Except.ok v := by
      intro q hqm
      exact hok q (List.Sublist.subset (hdrop ▸ hsub) hqm)
    have hfreshd : ∀ q ∈ (q0 :: qrest).dropLast,
        normalizeKey q ∉ cacheKeys (⟨[]⟩ : CacheState) := by
      intro q _ h
      simp [cacheKeys] at h
    have hndd : (((q0 :: qrest).dropLast).map normalizeKey).Nodup :=
      List.Nodup.sublist (List.Sublist.map normalizeKey (hdrop ▸ hsub)) hnd
    have hkeysd := cacheKeys_runQueries embed cap ((q0 :: qrest).dropLast) ⟨[]⟩
      hokd hfreshd hndd
    rw [show cacheKeys (⟨[]⟩ : CacheState) = [] from rfl] at hkeysd
    have hbridged : ((q0 :: qrest).dropLast).foldl
        (fun L q => ((normalizeKey q) :: L).take cap) [] =
        ((((q0 :: qrest).dropLast).map normalizeKey).reverse).take cap := by
      rw [← foldl_take_keys cap (((q0 :: qrest).dropLast).map normalizeKey), List.foldl_map]
    rw [hbridged] at hkeysd
    have hlend : ((((q0 :: qrest).dropLast).map normalizeKey).reverse).length = cap := by
      rw [List.length_reverse, List.length_map, List.length_dropLast, List.length_cons, hlen]
      omega
    rw [hkeysd, List.take_of_length_le (le_of_eq hlend), List.getLast?_reverse]
    rw [hdrop, List.map_cons, List.head?_cons]

/-- Witness for C1: capacity 2, three questions with distinct normalized
keys a, b, c; afterwards exactly keys c, b remain (in recency order), key a
is evicted, and a was the least-recently-used key just before the third
insert. -/
theorem cache_capacity_lru_witness :
    (runQueries (fun _ => Except.ok ([1] : Vec)) 2 ⟨[]⟩ ["a", "b", "c"]).entries.length = 2 ∧
    cacheKeys (runQueries (fun _ => Except.ok ([1] : Vec)) 2 ⟨[]⟩ ["a", "b", "c"]) =
      (["b", "c"].map normalizeKey).reverse ∧
    normalizeKey "a" ∉
      cacheKeys (runQueries (fun _ => Except.ok ([1] : Vec)) 2 ⟨[]⟩ ["a", "b", "c"]) ∧
    (cacheKeys (runQueries (fun _ => Except.ok ([1] : Vec)) 2 ⟨[]⟩
      (["a", "b", "c"].dropLast))).getLast? = some (normalizeKey "a") :=
  cache_capacity_lru (fun _ => Except.ok ([1] : Vec)) 2 "a" ["b", "c"]
    (by decide) (by decide)
    (by
      simp only [List.map_cons, List.map_nil, normalizeKey_lit_a, normalizeKey_lit_b,
        normalizeKey_lit_c]
      decide)
    (fun q _ => ⟨[1], rfl⟩)

/-- C5: two get_or_compute calls whose questions normalize to the same key
share one cache entry: after the first call succeeds with vector v, the
second call finds v under its normalized key, returns exactly v, and does
not invoke EmbeddingClient. -/
theorem cache_normalized_hit (embed : String → Except EmbedError Vec) (cap : Nat)
    (st : CacheState) (q1 q2 : String) (v : Vec)
    (hcap : 0 < cap)
    (hk : normalizeKey q1 = normalizeKey q2)
    (h1 : (getOrCompute embed cap st q1).result = Except.ok v) :
    lookupEntry (normalizeKey q2) (getOrCompute embed cap st q1).state.entries = some v ∧
    (getOrCompute embed cap (getOrCompute embed cap st q1).state q2).result = Except.ok v ∧
    (getOrCompute embed cap (getOrCompute embed cap st q1).state q2).clientCalls = 0 := by
  have hhead : ∃ t, (getOrCompute embed cap st q1).state.entries =
      (normalizeKey q1, v) :: t := by
    simp only [getOrCompute] at h1 ⊢
    cases hl : lookupEntry (normalizeKey q1) st.entries with
    | some w =>
        rw [hl] at h1
        dsimp only at h1
        simp only [Except.ok.injEq] at h1
        subst h1
        exact ⟨_, rfl⟩
    | none =>
        rw [hl] at h1
        dsimp only at h1 ⊢
        cases he : embed q1 with
        | error e =>
            rw [he] at h1
            dsimp only at h1
            exact absurd h1 (by simp)
        | ok w =>
            rw [he] at h1
            dsimp only at h1 ⊢
            simp only [Except.ok.injEq] at h1
            subst h1
            cases cap with
            | zero => exact absurd hcap (by simp)
            | succ n =>
                rw [List.take_succ_cons]
                exact ⟨_, rfl⟩
  obtain ⟨t, ht⟩ := hhead
  have hlk : lookupEntry (normalizeKey q2) (getOrCompute embed cap st q1).state.entries =
      some v := by
    rw [ht, lookupEntry]
    dsimp only
    rw [if_pos hk]
  refine ⟨hlk, ?_, ?_⟩ <;> rw [getOrCompute_hit hlk]

/-- Witness for C5: the questions A and a normalize to the same key; the
second call returns the embedding cached by the first without invoking the
client. -/
theorem cache_normalized_hit_witness :
    lookupEntry (normalizeKey "a")
      (getOrCompute (fun _ => Except.ok ([7] : Vec)) 100 ⟨[]⟩ "A").state.entries =
      some [7] ∧
    (getOrCompute (fun _ => Except.ok ([7] : Vec)) 100
      (getOrCompute (fun _ => Except.ok ([7] : Vec)) 100 ⟨[]⟩ "A").state "a").result =
      Except.ok [7] ∧
    (getOrCompute (fun _ => Except.ok ([7] : Vec)) 100
      (getOrCompute (fun _ => Except.ok ([7] : Vec)) 100 ⟨[]⟩ "A").state "a").clientCalls =
      0 :=
  cache_normalized_hit (fun _ => Except.ok ([7] : Vec)) 100 ⟨[]⟩ "A" "a" [7]
    (by decide) (by rw [normalizeKey_lit_A, normalizeKey_lit_a]) rfl

/-- C9: if EmbeddingClient fails on a cache miss, the cache state is left
completely unchanged and the same failure propagates to the caller. -/
theorem cache_failure_atomic (embed : String → Except EmbedError Vec) (cap : Nat)
    (st : CacheState) (q : String) (e : EmbedError)
    (hmiss : lookupEntry (normalizeKey q) st.entries = none)
    (herr : embed q = Except.error e) :
    getOrCompute embed cap st q = ⟨Except.error e, st, 1⟩ := by
  simp [getOrCompute, hmiss, herr]

/-- Witness for C9: a rate-limited embedding call on an empty cache leaves
the cache empty and propagates the rate-limit failure. -/
theorem cache_failure_atomic_witness :
    getOrCompute (fun _ => Except.error EmbedError.rateLimit) 2 ⟨[]⟩ "x" =
      ⟨Except.error EmbedError.rateLimit, ⟨[]⟩, 1⟩ :=
  cache_failure_atomic (fun _ => Except.error EmbedError.rateLimit) 2 ⟨[]⟩ "x"
    EmbedError.rateLimit rfl rfl

/-- C7: an empty retrieval is not an error: when no scanned chunk clears the
threshold, search returns an empty result list, the orchestrator still
invokes AnswerGenerator on the empty context (ungrounded fallback), the
response's links list is empty, and the request terminates in RESPONDED,
not ERRORED. -/
theorem empty_retrieval_fallback {V α : Type} [LinearOrder α]
    (simFn : List V → List V → α) (cfg : Config α)
    (embed : String → Except EmbedError (List V)) (rows : List (Chunk V))
    (gen : String → String → Option String → Except GenError String)
    (question : String) (image : Option String) (qv : List V) (ans : String)
    (hq : ¬ question.trim = "")
    (hembed : embed question = Except.ok qv)
    (hbelow : ∀ sc ∈ scoreRows (simFn qv) (scanRows cfg.scanLimit rows),
      sc.score < cfg.similarityThreshold)
    (hgen : gen question "" image = Except.ok ans) :
    (search (simFn qv) cfg rows).results = [] ∧
    orchestrate simFn cfg embed (Except.ok rows) gen question image =
      Outcome.responded ans [] := by
  have hcand : candidatesOf cfg.similarityThreshold
      (scoreRows (simFn qv) (scanRows cfg.scanLimit rows)) = [] := by
    refine List.filter_eq_nil_iff.mpr ?_
    intro sc hsc
    simp only [decide_eq_true_eq, not_le]
    exact hbelow sc hsc
  have hres : (search (simFn qv) cfg rows).results = [] := by
    show (rankDesc (candidatesOf cfg.similarityThreshold
      (scoreRows (simFn qv) (scanRows cfg.scanLimit rows)))).take cfg.maxResults = []
    rw [hcand]
    simp [rankDesc]
  have hctx : assembleContext cfg.maxContextChunks cfg.maxCharsPerChunk
      ([] : List (Scored V α)) = "" := by
    simp only [assembleContext, List.take_nil, List.map_nil]
    rfl
  have hlinks : assembleLinks ([] : List (Scored V α)) = [] := rfl
  refine ⟨hres, ?_⟩
  simp only [orchestrate, if_neg hq, hembed, hres, hctx, hlinks, hgen]

/-- Witness for C7: a request whose only stored chunk scores 0, below the
threshold 1, still responds with the fallback answer and an empty links
list. -/
theorem empty_retrieval_fallback_witness :
    (search ((fun _ _ => (0 : ℚ)) [(1 : ℚ)]) ⟨(1 : ℚ), 8, 3, 3000, 500, 100⟩
      [(⟨1, "alpha", "u1", some [(1 : ℚ)]⟩ : Chunk ℚ)]).results = [] ∧
    orchestrate (fun _ _ => (0 : ℚ)) ⟨(1 : ℚ), 8, 3, 3000, 500, 100⟩
      (fun _ => Except.ok [(1 : ℚ)])
      (Except.ok [(⟨1, "alpha", "u1", some [(1 : ℚ)]⟩ : Chunk ℚ)])
      (fun _ _ _ => Except.ok "general") "hi" none =
      Outcome.responded "general" [] :=
  empty_retrieval_fallback (fun _ _ => (0 : ℚ)) ⟨(1 : ℚ), 8, 3, 3000, 500, 100⟩
    (fun _ => Except.ok [(1 : ℚ)]) [⟨1, "alpha", "u1", some [(1 : ℚ)]⟩]
    (fun _ _ _ => Except.ok "general") "hi" none [(1 : ℚ)] "general"
    (by rw [trim_lit_hi]; decide) rfl (by decide) rfl

/-! ### Cosine similarity lemmas -/

theorem dotp_self_nonneg : ∀ v : List ℝ, 0 ≤ dotp v v := by
  intro v
  induction v with
  | nil => exact le_refl 0
  | cons a as ih =>
      rw [dotp]
      exact add_nonneg (mul_self_nonneg a) ih

theorem dotp_self_eq_zero : ∀ {v : List ℝ}, dotp v v = 0 → ∀ x ∈ v, x = 0 := by
  intro v
  induction v with
  | nil => intro _ x hx; simp at hx
  | cons a as ih =>
      intro h x hx
      rw [dotp] at h
      rcases (add_eq_zero_iff_of_nonneg (mul_self_nonneg a)
        (dotp_self_nonneg as)).mp h with ⟨ha, hrest⟩
      rcases List.mem_cons.mp hx with rfl | hx2
      · exact mul_self_eq_zero.mp ha
      · exact ih hrest x hx2

theorem dotp_neg_right : ∀ v w : List ℝ,
    dotp v (w.map (fun x => -x)) = -(dotp v w) := by
  intro v
  induction v with
  | nil => intro w; simp [dotp]
  | cons a as ih =>
      intro w
      cases w with
      | nil => simp [dotp]
      | cons b bs =>
          rw [List.map_cons]
          simp only [dotp, ih]
          ring

theorem dotp_neg_self : ∀ v : List ℝ,
    dotp (v.map (fun x => -x)) (v.map (fun x => -x)) = dotp v v := by
  intro v
  induction v with
  | nil => rw [List.map_nil]
  | cons a as ih =>
      rw [List.map_cons, dotp, dotp, ih]
      ring_nf

theorem vnorm_eq_zero_iff {v : List ℝ} : vnorm v = 0 ↔ dotp v v = 0 := by
  rw [vnorm, Real.sqrt_eq_zero (dotp_self_nonneg v)]

theorem cosineSim_zero_norm (a b : List ℝ) (h : vnorm b = 0) :
    cosineSim a b = -1 := by
  rw [cosineSim, if_pos (Or.inr h)]

theorem cosineSim_self {v : List ℝ} (h : dotp v v ≠ 0) : cosineSim v v = 1 := by
  have hn : ¬ vnorm v = 0 := fun hv => h (vnorm_eq_zero_iff.mp hv)
  rw [cosineSim, if_neg (by push_neg; exact ⟨hn, hn⟩)]
  rw [vnorm, Real.mul_self_sqrt (dotp_self_nonneg v)]
  exact div_self h

theorem cosineSim_neg_self {v : List ℝ} (h : dotp v v ≠ 0) :
    cosineSim v (v.map (fun x => -x)) = -1 := by
  have hvn : vnorm (v.map (fun x => -x)) = vnorm v := by
    rw [vnorm, vnorm, dotp_neg_self]
  have hn : ¬ vnorm v = 0 := fun hv => h (vnorm_eq_zero_iff.mp hv)
  rw [cosineSim, hvn, if_neg (by push_neg; exact ⟨hn, hn⟩), dotp_neg_right,
    vnorm, Real.mul_self_sqrt (dotp_self_nonneg v), neg_div]
  rw [div_self h]

/-- C8: cosine similarity is total: a zero-norm operand yields the minimum
value -1 instead of a division error; cosine of a nonzero vector with
itself is 1 and with its negation is -1; and a chunk whose stored vector
has zero norm is never returned under any positive threshold. -/
theorem cosine_total_zero_norm_excluded :
    (∀ a b : List ℝ, vnorm b = 0 → cosineSim a b = -1) ∧
    (∀ v : List ℝ, (∃ x ∈ v, x ≠ 0) → cosineSim v v = 1) ∧
    (∀ v : List ℝ, (∃ x ∈ v, x ≠ 0) → cosineSim v (v.map (fun x => -x)) = -1) ∧
    (∀ (cfg : Config ℝ) (rows : List (Chunk ℝ)) (qv : List ℝ) (c : Chunk ℝ)
      (w : List ℝ), 0 < cfg.similarityThreshold → c.embedding = some w →
      vnorm w = 0 →
      c ∉ ((search (cosineSim qv) cfg rows).results.map Scored.chunk)) := by
  have hne : ∀ v : List ℝ, (∃ x ∈ v, x ≠ 0) → dotp v v ≠ 0 := by
    intro v hv h
    obtain ⟨x, hx, hx0⟩ := hv
    exact hx0 (dotp_self_eq_zero h x hx)
  refine ⟨cosineSim_zero_norm, ?_, ?_, ?_⟩
  · intro v hv
    exact cosineSim_self (hne v hv)
  · intro v hv
    exact cosineSim_neg_self (hne v hv)
  · intro cfg rows qv c w hthr hemb hnorm hmem
    rcases List.mem_map.mp hmem with ⟨sc, hsc, hchunk⟩
    have hcand := mem_candidatesOf.mp (mem_candidates_of_mem_results hsc)
    have hscore : sc.score = cosineSim qv (sc.chunk.embedding.getD []) :=
      score_of_mem_scoreRowsFrom hcand.1
    rw [hchunk, hemb] at hscore
    rw [show (some w).getD [] = w from rfl] at hscore
    rw [cosineSim_zero_norm qv w hnorm] at hscore
    have := hcand.2
    rw [hscore] at this
    linarith

/-- Witness for C8: the zero vector scores -1 against any query; the unit
vector scores 1 against itself and -1 against its negation; and a chunk
storing the zero vector is never returned under threshold 1. -/
theorem cosine_total_zero_norm_excluded_witness :
    cosineSim [(1 : ℝ)] [(0 : ℝ)] = -1 ∧
    cosineSim [(1 : ℝ)] [(1 : ℝ)] = 1 ∧
    cosineSim [(1 : ℝ)] ([(1 : ℝ)].map (fun x => -x)) = -1 ∧
    (⟨7, "z", "uz", some [(0 : ℝ)]⟩ : Chunk ℝ) ∉
      ((search (cosineSim [(1 : ℝ)]) ⟨(1 : ℝ), 8, 3, 3000, 500, 100⟩
        [(⟨7, "z", "uz", some [(0 : ℝ)]⟩ : Chunk ℝ)]).results.map Scored.chunk) :=
  ⟨cosine_total_zero_norm_excluded.1 [(1 : ℝ)] [(0 : ℝ)]
      (by simp [vnorm, dotp]),
    cosine_total_zero_norm_excluded.2.1 [(1 : ℝ)] ⟨1, by norm_num⟩,
    cosine_total_zero_norm_excluded.2.2.1 [(1 : ℝ)] ⟨1, by norm_num⟩,
    cosine_total_zero_norm_excluded.2.2.2 ⟨(1 : ℝ), 8, 3, 3000, 500, 100⟩
      [⟨7, "z", "uz", some [(0 : ℝ)]⟩] [(1 : ℝ)] ⟨7, "z", "uz", some [(0 : ℝ)]⟩
      [(0 : ℝ)] (by norm_num) rfl (by simp [vnorm, dotp])⟩

/-- C10: handleSendMessage with a whitespace-only question or while a
request is in flight issues no HTTP request and leaves messages, the loading
flag and the error state unchanged. -/
theorem frontend_guard_no_request (st : ChatState) (question : String)
    (image : Option String) (now : Nat) (resp : Except String ApiResponse)
    (h : question.trim = "" ∨ st.isLoading = true) :
    handleSendMessage st question image now resp = (st, false) := by
  rcases h with h | h
  · simp [handleSendMessage, h]
  · simp [handleSendMessage, h]

/-- Witness for C10: a whitespace-only question, and likewise a call while a
request is in flight, leave the state untouched and issue no request. -/
theorem frontend_guard_no_request_witness :
    handleSendMessage ⟨[], false, none⟩ "   " none 0 (Except.ok ⟨"a", []⟩) =
      (⟨[], false, none⟩, false) ∧
    handleSendMessage ⟨[], true, none⟩ "hi" none 0 (Except.ok ⟨"a", []⟩) =
      (⟨[], true, none⟩, false) :=
  ⟨frontend_guard_no_request ⟨[], false, none⟩ "   " none 0 (Except.ok ⟨"a", []⟩)
      (Or.inl trim_lit_spaces),
    frontend_guard_no_request ⟨[], true, none⟩ "hi" none 0 (Except.ok ⟨"a", []⟩)
      (Or.inr rfl)⟩

end RagChatbot
